import Mathlib

/-!
Verification of the article-extraction, site-index and link-resolution core
of the `imo` static blog generator.

The Rust source is shallowly embedded:

* `chrono::NaiveDateTime` values are modelled by `Ts`, a calendar year
  (`Int`, the value returned by `Datelike::year`) paired with a `Nat`
  encoding the position within the year; `NaiveDateTime`'s total order is
  exactly the lexicographic order on this pair.
* Rust `String`/`str` values are Lean `String`s; Rust's `Ord` on strings is
  byte-wise lexicographic, which coincides with code-point lexicographic
  order, modelled by `listCmp` on the underlying character list.
* `BTreeMap` is modelled as a sorted association list (`mapInsert`,
  `mapLookup`), `BTreeSet` as a sorted duplicate-free list (`setInsert`);
  `setInsert` keeps the old element when an equal one is present, exactly
  like `BTreeSet::insert`.
* the parsed org tree (`orgize`) is modelled by `Elem` / `Headline`;
  in-place `detach` mutations are modelled by returning the tree with the
  detached subtrees removed.
* console diagnostics (`utils::notice`) are modelled as a returned list of
  the formatted diagnostic strings.
-/

/-- A `chrono::NaiveDateTime`: the calendar year (as `Datelike::year`
returns it) and the instant within that year.  `NaiveDateTime`'s order is
the lexicographic order on `(year, sub)`. -/
structure Ts where
  year : Int
  sub : Nat
deriving DecidableEq, Repr

/-- Strict `<` on `NaiveDateTime`, as a boolean (Rust `PartialOrd`). -/
def tsLtb (a b : Ts) : Bool :=
  a.year < b.year || (a.year == b.year && a.sub < b.sub)

/-- `Ord::cmp` on `NaiveDateTime`. -/
def tsCmp (a b : Ts) : Ordering :=
  if tsLtb a b then .lt else if a = b then .eq else .gt

theorem tsLtb_irrefl (a : Ts) : tsLtb a a = false := by
  simp [tsLtb]

theorem tsLtb_trans {a b c : Ts} (h1 : tsLtb a b = true) (h2 : tsLtb b c = true) :
    tsLtb a c = true := by
  simp only [tsLtb, Bool.or_eq_true, Bool.and_eq_true, decide_eq_true_eq, beq_iff_eq] at *
  omega

theorem tsLtb_asymm {a b : Ts} (h : tsLtb a b = true) : tsLtb b a = false := by
  simp only [tsLtb, Bool.or_eq_true, Bool.and_eq_true, decide_eq_true_eq, beq_iff_eq,
    Bool.or_eq_false_iff, Bool.and_eq_false_iff, decide_eq_false_iff_not, beq_eq_false_iff_ne] at *
  omega

theorem tsLtb_total {a b : Ts} (hne : a ≠ b) : tsLtb a b = true ∨ tsLtb b a = true := by
  rcases a with ⟨ya, sa⟩
  rcases b with ⟨yb, sb⟩
  simp only [tsLtb, Bool.or_eq_true, Bool.and_eq_true, decide_eq_true_eq, beq_iff_eq]
  simp only [ne_eq, Ts.mk.injEq, not_and] at hne
  omega

theorem tsCmp_eq_lt {a b : Ts} : tsCmp a b = .lt ↔ tsLtb a b = true := by
  unfold tsCmp
  split
  · simp_all
  · split <;> simp_all

theorem tsCmp_eq_eq {a b : Ts} : tsCmp a b = .eq ↔ a = b := by
  unfold tsCmp
  split
  · rename_i h
    constructor
    · intro hc; cases hc
    · rintro rfl; rw [tsLtb_irrefl] at h; cases h
  · split <;> simp_all

theorem tsCmp_eq_gt {a b : Ts} : tsCmp a b = .gt ↔ tsLtb b a = true := by
  unfold tsCmp
  split
  · rename_i h
    constructor
    · intro hc; cases hc
    · intro hba; rw [tsLtb_asymm hba] at h; cases h
  · split
    · rename_i h rfl'
      subst rfl'
      simp [tsLtb_irrefl]
    · rename_i hlt hne
      have := tsLtb_total (fun he => hne he)
      simp only [hlt] at this
      rcases this with h | h
      · cases h
      · simp [h]

/-- Code-point comparison of two characters, via `Char.toNat`. -/
def charCmpLt (a b : Char) : Prop := a.toNat < b.toNat

instance (a b : Char) : Decidable (charCmpLt a b) := by
  unfold charCmpLt; infer_instance

theorem charToNat_inj {a b : Char} (h : Char.toNat a = Char.toNat b) : a = b :=
  Char.ext_iff.mpr (UInt32.ext h)

/-- Lexicographic comparison of character lists: Rust's `Ord` on `str`
(byte-wise lexicographic = code-point lexicographic). -/
def listCmp : List Char → List Char → Ordering
  | [], [] => .eq
  | [], _ :: _ => .lt
  | _ :: _, [] => .gt
  | a :: as, b :: bs =>
    if a.toNat < b.toNat then .lt
    else if b.toNat < a.toNat then .gt
    else listCmp as bs

theorem listCmp_eq_eq : ∀ {as bs : List Char}, listCmp as bs = .eq ↔ as = bs
  | [], [] => by simp [listCmp]
  | [], _ :: _ => by simp [listCmp]
  | _ :: _, [] => by simp [listCmp]
  | a :: as, b :: bs => by
    unfold listCmp
    split
    · rename_i h
      constructor
      · intro hc; cases hc
      · intro he
        cases he
        omega
    · split
      · rename_i h
        constructor
        · intro hc; cases hc
        · intro he; cases he; omega
      · rename_i h1 h2
        have hab : a = b := charToNat_inj (by omega)
        subst hab
        rw [listCmp_eq_eq]
        simp

theorem listCmp_lt_trans : ∀ {as bs cs : List Char},
    listCmp as bs = .lt → listCmp bs cs = .lt → listCmp as cs = .lt
  | [], [], _ :: _, _, _ => rfl
  | [], _ :: _, _ :: _, _, _ => rfl
  | [], [], [], h1, _ => by cases h1
  | [], _ :: _, [], _, h2 => by cases h2
  | _ :: _, [], _, h1, _ => by cases h1
  | _ :: _, _ :: _, [], _, h2 => by cases h2
  | a :: as, b :: bs, c :: cs, h1, h2 => by
    unfold listCmp at *
    split at h1
    · rename_i hab
      split at h2
      · rename_i hbc
        simp [Nat.lt_trans hab hbc]
      · split at h2
        · cases h2
        · rename_i h1' h2'
          have : b = c := charToNat_inj (by omega)
          subst this
          simp [hab]
    · split at h1
      · cases h1
      · rename_i h1' h2'
        have hab : a = b := charToNat_inj (by omega)
        subst hab
        split at h2
        · rename_i hac
          simp [hac]
        · split at h2
          · cases h2
          · rename_i h3 h4
            have : a = c := charToNat_inj (by omega)
            subst this
            simp only [lt_irrefl, if_false]
            exact listCmp_lt_trans h1 h2

theorem listCmp_swap : ∀ (as bs : List Char), listCmp bs as = (listCmp as bs).swap
  | [], [] => rfl
  | [], _ :: _ => rfl
  | _ :: _, [] => rfl
  | a :: as, b :: bs => by
    have ih := listCmp_swap as bs
    unfold listCmp
    rcases Nat.lt_trichotomy a.toNat b.toNat with h | h | h
    · rw [if_neg (show ¬ b.toNat < a.toNat by omega), if_pos h, if_pos h]
      rfl
    · rw [if_neg (show ¬ b.toNat < a.toNat by omega), if_neg (show ¬ a.toNat < b.toNat by omega),
        if_neg (show ¬ a.toNat < b.toNat by omega), if_neg (show ¬ b.toNat < a.toNat by omega)]
      exact ih
    · rw [if_pos h, if_neg (show ¬ a.toNat < b.toNat by omega), if_pos h]
      rfl

theorem listCmp_gt_iff_lt {as bs : List Char} : listCmp as bs = .gt ↔ listCmp bs as = .lt := by
  rw [listCmp_swap as bs]
  cases listCmp as bs <;> simp [Ordering.swap]

/-- Rust's `Ord::cmp` on `String` (used by `Id`'s derived `Ord`). -/
def strCmp (a b : String) : Ordering := listCmp a.data b.data

theorem strCmp_eq_eq {a b : String} : strCmp a b = .eq ↔ a = b := by
  unfold strCmp
  rw [listCmp_eq_eq]
  constructor
  · intro h
    cases a; cases b
    exact congrArg String.mk h
  · intro h; cases h; rfl

theorem strCmp_lt_trans {a b c : String} (h1 : strCmp a b = .lt) (h2 : strCmp b c = .lt) :
    strCmp a c = .lt := listCmp_lt_trans h1 h2

theorem strCmp_gt_iff_lt {a b : String} : strCmp a b = .gt ↔ strCmp b a = .lt :=
  listCmp_gt_iff_lt

/-! ## The parsed org document tree (`orgize`) -/

/-- An `orgize::elements::Timestamp`.  Only the shape matters to the code:
active/inactive with optional repeater and delay (their values are never
inspected, only their presence), or any other timestamp kind
(`ActiveRange`, `InactiveRange`, `Diary`). -/
inductive OrgTimestamp where
  | active (start : Ts) (hasRepeater : Bool) (hasDelay : Bool)
  | inactive (start : Ts) (hasRepeater : Bool) (hasDelay : Bool)
  | other
deriving DecidableEq, Repr

/-- The match
`Timestamp::Active { start, repeater: None, delay: None } |
 Timestamp::Inactive { start, repeater: None, delay: None } => Some(start)`,
`_ => None` used both for the schedule check and for the LOGBOOK scan. -/
def plainStart : OrgTimestamp → Option Ts
  | .active start false false => some start
  | .inactive start false false => some start
  | _ => none

/-- A non-headline element node of the document tree.  `drawer` mirrors
`Element::Drawer` (name plus children), `timestamp` mirrors
`Element::Timestamp` (a leaf), `node` stands for any other element with
children and `leaf` for any other childless element. -/
inductive Elem where
  | drawer (name : String) (children : List Elem)
  | timestamp (t : OrgTimestamp)
  | node (children : List Elem)
  | leaf
deriving Repr

mutual
/-- The plain-timestamp starts found in an element's subtree (itself
included): what the loop `for c in child.descendants(...)` collects when
it keeps `Timestamp::{Active,Inactive}` without repeater and delay. -/
def elemPlainStarts : Elem → List Ts
  | .timestamp t =>
    match plainStart t with
    | some s => [s]
    | none => []
  | .drawer _ cs => elemsPlainStarts cs
  | .node cs => elemsPlainStarts cs
  | .leaf => []

def elemsPlainStarts : List Elem → List Ts
  | [] => []
  | e :: rest => elemPlainStarts e ++ elemsPlainStarts rest
end

/-- `orgize::elements::Title`: the raw title text, the tag list, the
planning line (`None` when the headline has no planning line; its
`scheduled` field is `None` when the planning line has no `SCHEDULED`
entry) and the property drawer as an ordered key/value list. -/
structure HTitle where
  raw : String
  tags : List String
  planning : Option (Option OrgTimestamp)
  properties : List (String × String)
deriving Repr

/-- An `orgize` headline: its title, the elements of its own section and
its child headlines. -/
inductive Headline where
  | mk (title : HTitle) (sec : List Elem) (children : List Headline)
deriving Repr

def Headline.title : Headline → HTitle
  | .mk t _ _ => t

def Headline.sec : Headline → List Elem
  | .mk _ s _ => s

def Headline.children : Headline → List Headline
  | .mk _ _ cs => cs

mutual
/-- `site::headlines`: all strict descendants of a headline, pre-order
(`for child in headline.children { push child; extend headlines(child) }`). -/
def headlinesOf : Headline → List Headline
  | .mk _ _ cs => headlinesList cs

def headlinesList : List Headline → List Headline
  | [] => []
  | c :: rest => c :: (headlinesOf c ++ headlinesList rest)
end

/-- `site::get_id`: the value of the first `ID` property of a title. -/
def get_id (t : HTitle) : Option String :=
  t.properties.findSome? (fun kv => if kv.1 = "ID" then some kv.2 else none)

/-- `site::collect_ids`: the `ID` property of every strict descendant
headline, in document order, regardless of the descendant's tags. -/
def collect_ids (h : Headline) : List String :=
  (headlinesOf h).filterMap (fun d => get_id d.title)

mutual
/-- The net effect on the headline's subtree of the loop that detaches
every strict descendant headline tagged `PRIVATE`.  The Rust code first
collects all descendants and then calls `detach` on each tagged one;
detaching a node that sits inside an already-detached subtree no longer
changes the remaining tree, so the remaining tree is exactly the original
with every `PRIVATE`-rooted subtree pruned, which is what this returns. -/
def removePrivate : Headline → Headline
  | .mk t s cs => .mk t s (filterPrivate cs)

def filterPrivate : List Headline → List Headline
  | [] => []
  | c :: rest =>
    if c.title.tags.contains "PRIVATE" then filterPrivate rest
    else removePrivate c :: filterPrivate rest
end

mutual
/-- Specification-side pruning: the strict descendants of a headline that
are reachable without entering any `PRIVATE`-tagged headline's subtree
(each returned as its original, unpruned subtree), in document order. -/
def goodDesc : Headline → List Headline
  | .mk _ _ cs => goodDescList cs

def goodDescList : List Headline → List Headline
  | [] => []
  | c :: rest =>
    if c.title.tags.contains "PRIVATE" then goodDescList rest
    else c :: (goodDesc c ++ goodDescList rest)
end

/-- `Element::Drawer(drawer) if drawer.name == "LOGBOOK"`. -/
def isLogbookDrawer : Elem → Bool
  | .drawer n _ => n == "LOGBOOK"
  | _ => false

/-- The inner accumulator step of the LOGBOOK scan: for a plain timestamp
start, `if start > published { updated = max(updated, start) }`. -/
def updStep (published : Ts) : Option Ts → Ts → Option Ts
  | some v, start =>
    if tsLtb published start then
      if tsLtb v start then some start else some v
    else some v
  | none, start => if tsLtb published start then some start else none

/-- The whole LOGBOOK scan of `load_article`: over the children of the
section node, for each drawer named `LOGBOOK`, fold `updStep` over the
plain-timestamp starts of its descendants. -/
def scanUpdated (published : Ts) (sec : List Elem) : Option Ts :=
  sec.foldl
    (fun u e =>
      match e with
      | .drawer n cs =>
        if n = "LOGBOOK" then (elemsPlainStarts cs).foldl (updStep published) u else u
      | _ => u)
    none

/-! ## Articles and extraction -/

/-- `site::Article`.  The Rust struct stores a shared handle `org` plus a
`headline` locator into the shared tree; here `content` is the headline's
subtree as it stands after `load_article`'s mutations (LOGBOOK drawers
removed from the candidate's own section, `PRIVATE` descendants pruned),
which is exactly what rendering later traverses. -/
structure Article where
  id : String
  published : Ts
  updated : Option Ts
  title : String
  subids : List String
  content : Headline
deriving Repr

/-- `format!("headline \x7b\x7d has blog tag, but not SCHEDULED", title.raw)`
(with the raw title quoted). -/
def schedMsg (raw : String) : String :=
  "headline \"" ++ raw ++ "\" has blog tag, but not SCHEDULED"

/-- `format!("headline \x7b\x7d has blog tag, but does not have ID", title.raw)`. -/
def idMissingMsg (raw : String) : String :=
  "headline \"" ++ raw ++ "\" has blog tag, but does not have ID"

/-- `format!("headline \x7b\x7d has blog tag, but ID is empty", title.raw)`. -/
def idEmptyMsg (raw : String) : String :=
  "headline \"" ++ raw ++ "\" has blog tag, but ID is empty"

/-- `site::load_article`.  Returns the extracted `Article` (or `None`)
together with the diagnostics the call printed through `utils::notice`,
in order. -/
def load_article (h : Headline) : Option Article × List String :=
  let t := h.title
  if (t.tags.contains "blog") = false then (none, [])
  else
    match t.planning with
    | none => (none, [])
    | some pl =>
      match pl with
      | none => (none, [])
      | some sched =>
        match plainStart sched with
        | none => (none, [schedMsg t.raw])
        | some published =>
          match get_id t with
          | none => (none, [idMissingMsg t.raw])
          | some i =>
            if i = "" then (none, [idEmptyMsg t.raw])
            else
              let subids := collect_ids h
              let updated := scanUpdated published h.sec
              let content :=
                removePrivate (.mk t (h.sec.filter (fun e => isLogbookDrawer e = false)) h.children)
              (some { id := i, published := published, updated := updated,
                      title := t.raw, subids := subids, content := content }, [])

/-! ## The site index -/

/-- `impl Ord for Article`:
`if self.published != other.published { published.cmp } else { id.cmp }`.
`PartialEq`/`Eq` on `Article` likewise compare only `id`, so two articles
are `Ord`-equal exactly when published and id agree. -/
def artCmp (x y : Article) : Ordering :=
  if x.published ≠ y.published then tsCmp x.published y.published else strCmp x.id y.id

/-- `site::id_to_path`:
`format!("articles/\x7b\x7d/\x7b\x7d.html", id.0.chars().last().unwrap(), id.0)`.
The Rust code panics on an empty id (extraction guarantees non-empty ids);
the model totalises the last character with a default. -/
def id_to_path (id : String) : String :=
  "articles/" ++ String.mk [id.data.getLastD 'a'] ++ "/" ++ id ++ ".html"

/-- `BTreeMap::insert` on a `String`-keyed map as a sorted association
list: replaces the value when an `Ord`-equal key is present (keeping the
stored key), otherwise inserts at the sorted position. -/
def mapInsert {α : Type} : List (String × α) → String → α → List (String × α)
  | [], k, v => [(k, v)]
  | (k', v') :: rest, k, v =>
    match strCmp k k' with
    | .lt => (k, v) :: (k', v') :: rest
    | .eq => (k', v) :: rest
    | .gt => (k', v') :: mapInsert rest k v

/-- `BTreeMap::get`. -/
def mapLookup {α : Type} : List (String × α) → String → Option α
  | [], _ => none
  | (k', v') :: rest, k => if k = k' then some v' else mapLookup rest k

/-- `BTreeSet::insert` on a set of `Article`s ordered by `artCmp`: when an
`Ord`-equal element is already present the set is left unchanged (the old
element is kept, matching `BTreeSet::insert`'s documented behaviour). -/
def setInsert : List Article → Article → List Article
  | [], a => [a]
  | b :: rest, a =>
    match artCmp a b with
    | .lt => a :: b :: rest
    | .eq => b :: rest
    | .gt => b :: setInsert rest a

/-- The `by_year` update of `load_org_data`: look up the bucket of
`Year(article.published.year())`; insert into it if it exists, otherwise
create a fresh singleton bucket (`BTreeMap` keeps year keys sorted). -/
def bucketInsert : List (Int × List Article) → Int → Article → List (Int × List Article)
  | [], y, a => [(y, [a])]
  | (y', b) :: rest, y, a =>
    if y < y' then (y, [a]) :: (y', b) :: rest
    else if y = y' then (y', setInsert b a) :: rest
    else (y', b) :: bucketInsert rest y a

/-- `site::Site` (the fields the claims are about; `url` is an external
`url::Url` and is omitted together with the rendering templates). -/
structure Site where
  name : String
  feed : Bool
  index : List (Int × List Article)
  articles : List (String × Article)
  last_update : Option Ts
  subid_map : List (String × String)
deriving Repr

/-- `Site::new`. -/
def Site.new (name : String) (feed : Bool) : Site :=
  { name := name, feed := feed, index := [], articles := [], last_update := none,
    subid_map := [] }

def emptySite : Site := Site.new "" false

/-- `a.updated.unwrap_or(a.published)`: the effective timestamp. -/
def effectiveTs (a : Article) : Ts := a.updated.getD a.published

/-- The body of `load_org_data`'s per-article block: update `last_update`,
`articles`, `subid_to_articleid_map` (one insert per subid, in order) and
the `index` year bucket. -/
def ingest (s : Site) (a : Article) : Site :=
  let eff := effectiveTs a
  { s with
    last_update :=
      match s.last_update with
      | some lu => if tsLtb lu eff then some eff else some lu
      | none => some eff
    articles := mapInsert s.articles a.id a
    subid_map := a.subids.foldl (fun m sid => mapInsert m sid a.id) s.subid_map
    index := bucketInsert s.index a.published.year a }

def ingestAll (s : Site) (articles : List Article) : Site :=
  articles.foldl ingest s

/-- `Site::load_org_data` restricted to a parsed document: run
`load_article` on every headline of the document (all of them, nested ones
included, in `Org::headlines` pre-order) and ingest each extracted
article; also collect all diagnostics in order. -/
def load_org_data (s : Site) (doc : List Headline) : Site × List String :=
  (headlinesList doc).foldl
    (fun (acc : Site × List String) h =>
      match load_article h with
      | (some a, ds) => (ingest acc.1 a, acc.2 ++ ds)
      | (none, ds) => (acc.1, acc.2 ++ ds))
    (s, [])

/-- All articles stored in the `by_year` buckets, in bucket order. -/
def Site.bucketArticles (s : Site) : List Article :=
  s.index.foldr (fun yb acc => yb.2 ++ acc) []

/-- The feed-seeding selection in `generator::generate`:
`site.index.values().rev().flat_map(|articles| articles.iter().rev()).take(n)`
(the generator calls it with `n = FEED_ENTRY_COUNT = 10`). -/
def mostRecent (s : Site) (n : Nat) : List Article :=
  (s.index.reverse.foldr (fun yb acc => yb.2.reverse ++ acc) []).take n

/-! ## Link resolution (`ImoHtmlHandler::start`, `Element::Link` arm) -/

/-- Prefix test on strings (Rust `str::starts_with`). -/
def hasPfx (p s : String) : Bool := p.data.isPrefixOf s.data

/-- Drop the first `n` characters (Rust slicing `&path[n..]` on its ASCII
prefixes). -/
def strDrop (s : String) (n : Nat) : String := ⟨s.data.drop n⟩

theorem isPrefixOf_length_le : ∀ (p s : List Char), p.isPrefixOf s = true → p.length ≤ s.length
  | [], _, _ => Nat.zero_le _
  | _ :: _, [], h => by simp [List.isPrefixOf] at h
  | a :: as, b :: bs, h => by
    simp only [List.isPrefixOf, Bool.and_eq_true] at h
    simpa using isPrefixOf_length_le as bs h.2

/-- The outcome of `url::Url::parse` on a link target, as far as the
handler inspects it: success, the specific failure
`ParseError::RelativeUrlWithoutBase`, or any other failure.  The parser
itself is an external crate, so it enters the model as a parameter. -/
inductive UrlParse where
  | ok
  | relativeNoBase
  | otherErr
deriving DecidableEq, Repr

/-- What the handler writes for a link node: a plain anchor, bare text,
a clickable thumbnail (`<a href=..><img src=..></a>`, href and src
recorded separately), or delegation to the injected inner handler with the
(possibly rewritten) link. -/
inductive LinkOut where
  | anchor (href : String) (text : String)
  | plain (text : String)
  | image (href : String) (src : String)
  | delegate (path : String) (desc : Option String)
deriving Repr

/-- `path.rsplit("/").next()`: the part of the path after the last `/`
(the whole path when there is no `/`). -/
def afterLastSlash (l : List Char) : List Char :=
  l.foldl (fun acc c => if c = '/' then [] else acc ++ [c]) []

/-- `may_filename.rsplit_once(".")`, keeping only the extension part:
`some` of what follows the last `.`, or `none` when the filename contains
no `.`. -/
def extAfterDot (l : List Char) : Option (List Char) :=
  l.foldl (fun acc c => if c = '.' then some [] else acc.map (fun e => e ++ [c])) none

/-- The image test of the handler: the final target's extension is one of
`jpeg`, `jpg`, `png`, `svg`. -/
def isImagePath (p : String) : Bool :=
  match extAfterDot (afterLastSlash p.data) with
  | some e => ["jpeg", "jpg", "png", "svg"].contains (String.mk e)
  | none => false

/-- The `Element::Link` arm of `ImoHtmlHandler::start`, with the handler's
`site` and `base` fields and the external URL parser as arguments; returns
what gets written plus the diagnostics printed through `utils::notice`.
The `file:` arm strips the prefix and restarts the whole match, exactly
like the recursive `self.start(w, &Element::Link(fixed))` call. -/
def handleLink (s : Site) (base : String) (parse : String → UrlParse)
    (path : String) (desc : Option String) : LinkOut × List String :=
  if hasPfx "id:" path then
    let i := strDrop path 3
    match mapLookup s.articles i with
    | some _ => (.anchor (base ++ id_to_path i) (desc.getD path), [])
    | none =>
      match mapLookup s.subid_map i with
      | some aid => (.anchor (base ++ id_to_path aid ++ "#" ++ i) (desc.getD path), [])
      | none => (.plain (desc.getD path), ["id:" ++ i ++ " not found"])
  else if hF : hasPfx "file:" path then
    handleLink s base parse (strDrop path 5) desc
  else
    let path' := if parse path = .relativeNoBase then base ++ path else path
    if isImagePath path' then (.image path' path', [])
    else (.delegate path' desc, [])
termination_by path.data.length
decreasing_by
  have hle := isPrefixOf_length_le ("file:".data) path.data hF
  have h5 : ("file:".data).length = 5 := rfl
  simp only [strDrop, List.length_drop]
  omega

/-! ## String helpers -/

theorem strData_append (a b : String) : (a ++ b).data = a.data ++ b.data := by
  cases a; cases b; rfl

theorem strLength_append (a b : String) : (a ++ b).length = a.length + b.length := by
  rcases a with ⟨as⟩
  rcases b with ⟨bs⟩
  show (as ++ bs).length = as.length + bs.length
  exact List.length_append as bs

/-- The missing-identifier and empty-identifier diagnostics are distinct
for every headline title (their fixed suffixes have different lengths). -/
theorem idMsgs_distinct (raw : String) : idMissingMsg raw ≠ idEmptyMsg raw := by
  intro h
  have hlen : (idMissingMsg raw).length = (idEmptyMsg raw).length := congrArg String.length h
  simp only [idMissingMsg, idEmptyMsg, strLength_append] at hlen
  have c1 : ("\" has blog tag, but does not have ID" : String).length = 36 := rfl
  have c2 : ("\" has blog tag, but ID is empty" : String).length = 31 := rfl
  omega

/-! ## Inversion of a successful extraction -/

/-- What holds of an `Article` that `load_article` actually returns. -/
theorem load_article_some {h : Headline} {a : Article} {ds : List String}
    (hl : load_article h = (some a, ds)) :
    h.title.tags.contains "blog" = true ∧
    (∃ sched, h.title.planning = some (some sched) ∧ plainStart sched = some a.published) ∧
    get_id h.title = some a.id ∧ a.id ≠ "" ∧
    a.updated = scanUpdated a.published h.sec ∧
    a.title = h.title.raw ∧
    a.subids = collect_ids h ∧
    a.content =
      removePrivate (.mk h.title (h.sec.filter (fun e => isLogbookDrawer e = false)) h.children) ∧
    ds = [] := by
  simp only [load_article] at hl
  split at hl
  · simp at hl
  · rename_i hb
    simp only [Bool.not_eq_false] at hb
    split at hl
    · simp at hl
    · rename_i pl hpl
      split at hl
      · simp at hl
      · rename_i pl0 sched
        split at hl
        · simp at hl
        · rename_i published hplain
          split at hl
          · simp at hl
          · rename_i i hid
            split at hl
            · simp at hl
            · rename_i hne
              simp only [Prod.mk.injEq, Option.some.injEq] at hl
              obtain ⟨rfl, rfl⟩ := hl
              exact ⟨hb, ⟨sched, hpl, hplain⟩, hid, hne, rfl, rfl, rfl, rfl, rfl⟩

/-- C3: a `blog`-tagged headline with no schedule at all (no planning line,
or a planning line without `SCHEDULED`) yields no Article and no
diagnostic; one whose schedule is present but not a plain timestamp (a
repeater or delay is present, or it is another timestamp kind) yields no
Article and exactly the one diagnostic `schedMsg`, which quotes the
headline's raw title. -/
theorem claim_C3 (h : Headline) (hblog : h.title.tags.contains "blog" = true) :
    ((h.title.planning = none ∨ h.title.planning = some none) →
      load_article h = (none, [])) ∧
    (∀ sched, h.title.planning = some (some sched) → plainStart sched = none →
      load_article h = (none, [schedMsg h.title.raw])) := by
  have hmem : "blog" ∈ h.title.tags := by simpa using hblog
  constructor
  · rintro (hp | hp) <;> simp [load_article, hp, hmem]
  · intro sched hp hnp
    simp [load_article, hmem, hp, hnp]

def wH3a : Headline := .mk ⟨"t3", ["blog"], none, [("ID", "x3")]⟩ [] []

def wH3b : Headline :=
  .mk ⟨"t3", ["blog"], some (some (.active ⟨2020, 0⟩ true false)), [("ID", "x3")]⟩ [] []

theorem claim_C3_witness :
    load_article wH3a = (none, []) ∧
    load_article wH3b = (none, [schedMsg "t3"]) :=
  ⟨(claim_C3 wH3a (by decide)).1 (Or.inl rfl),
   (claim_C3 wH3b (by decide)).2 (.active ⟨2020, 0⟩ true false) rfl rfl⟩

/-- C4: a `blog`-tagged headline whose schedule is a plain timestamp but
whose `ID` property is missing yields no Article and exactly the one
diagnostic `idMissingMsg`; one whose `ID` property is present but empty
yields no Article and exactly the one diagnostic `idEmptyMsg`; both
diagnostics quote the headline's raw title and the two messages are
distinct. -/
theorem claim_C4 (h : Headline) (sched : OrgTimestamp) (published : Ts)
    (hblog : h.title.tags.contains "blog" = true)
    (hp : h.title.planning = some (some sched))
    (hplain : plainStart sched = some published) :
    (get_id h.title = none → load_article h = (none, [idMissingMsg h.title.raw])) ∧
    (get_id h.title = some "" → load_article h = (none, [idEmptyMsg h.title.raw])) ∧
    idMissingMsg h.title.raw ≠ idEmptyMsg h.title.raw := by
  have hmem : "blog" ∈ h.title.tags := by simpa using hblog
  refine ⟨?_, ?_, idMsgs_distinct h.title.raw⟩
  · intro hid
    simp [load_article, hmem, hp, hplain, hid]
  · intro hid
    simp [load_article, hmem, hp, hplain, hid]

def wH4a : Headline := .mk ⟨"t4", ["blog"], some (some (.inactive ⟨2021, 5⟩ false false)), []⟩ [] []

def wH4b : Headline :=
  .mk ⟨"t4", ["blog"], some (some (.inactive ⟨2021, 5⟩ false false)), [("ID", "")]⟩ [] []

theorem claim_C4_witness :
    load_article wH4a = (none, [idMissingMsg "t4"]) ∧
    load_article wH4b = (none, [idEmptyMsg "t4"]) ∧
    idMissingMsg "t4" ≠ idEmptyMsg "t4" :=
  ⟨(claim_C4 wH4a (.inactive ⟨2021, 5⟩ false false) ⟨2021, 5⟩ (by decide) rfl rfl).1 rfl,
   ((claim_C4 wH4b (.inactive ⟨2021, 5⟩ false false) ⟨2021, 5⟩ (by decide) rfl rfl).2).1 rfl,
   ((claim_C4 wH4b (.inactive ⟨2021, 5⟩ false false) ⟨2021, 5⟩ (by decide) rfl rfl).2).2⟩

/-! ## C5: the LOGBOOK scan computes the max qualifying timestamp -/

theorem tsLtb_false_trans {a b c : Ts} (h1 : tsLtb a b = false) (h2 : tsLtb b c = false) :
    tsLtb a c = false := by
  simp only [tsLtb, Bool.or_eq_false_iff, Bool.and_eq_false_iff, decide_eq_false_iff_not,
    beq_eq_false_iff_ne] at *
  omega

/-- The plain-timestamp starts inside the `LOGBOOK` drawers sitting
directly under a section, in document order. -/
def logbookStarts : List Elem → List Ts
  | [] => []
  | .drawer n cs :: rest =>
    (if n = "LOGBOOK" then elemsPlainStarts cs else []) ++ logbookStarts rest
  | .timestamp _ :: rest => logbookStarts rest
  | .node _ :: rest => logbookStarts rest
  | .leaf :: rest => logbookStarts rest

theorem scan_fold (p : Ts) : ∀ (sec : List Elem) (u : Option Ts),
    sec.foldl
      (fun u e =>
        match e with
        | .drawer n cs =>
          if n = "LOGBOOK" then (elemsPlainStarts cs).foldl (updStep p) u else u
        | _ => u)
      u
    = (logbookStarts sec).foldl (updStep p) u := by
  intro sec
  induction sec with
  | nil => intro u; rfl
  | cons e rest ih =>
    intro u
    cases e with
    | drawer n cs =>
      by_cases hn : n = "LOGBOOK"
      · simp only [List.foldl_cons, logbookStarts, hn, if_pos, List.foldl_append]
        exact ih _
      · simp only [List.foldl_cons, logbookStarts, hn, if_neg, List.nil_append,
          List.foldl_nil, ite_false]
        exact ih u
    | timestamp t => simpa only [List.foldl_cons, logbookStarts] using ih u
    | node cs => simpa only [List.foldl_cons, logbookStarts] using ih u
    | leaf => simpa only [List.foldl_cons, logbookStarts] using ih u

theorem scanUpdated_eq (p : Ts) (sec : List Elem) :
    scanUpdated p sec = (logbookStarts sec).foldl (updStep p) none := by
  unfold scanUpdated
  exact scan_fold p sec none

theorem updStep_some (p : Ts) (v : Ts) (t : Ts) : ∃ w, updStep p (some v) t = some w := by
  simp only [updStep]
  split
  · split
    · exact ⟨t, rfl⟩
    · exact ⟨v, rfl⟩
  · exact ⟨v, rfl⟩

theorem updFold_some (p : Ts) : ∀ (l : List Ts) (v : Ts),
    ∃ w, l.foldl (updStep p) (some v) = some w := by
  intro l
  induction l with
  | nil => exact fun v => ⟨v, rfl⟩
  | cons t rest ih =>
    intro v
    obtain ⟨w, hw⟩ := updStep_some p v t
    simpa only [List.foldl_cons, hw] using ih w

theorem updStep_qual (p : Ts) (u : Option Ts) (t : Ts) (hq : tsLtb p t = true) :
    ∃ w, updStep p u t = some w ∧ tsLtb w t = false := by
  cases u with
  | none => exact ⟨t, by simp [updStep, hq], tsLtb_irrefl t⟩
  | some v =>
    by_cases hv : tsLtb v t = true
    · exact ⟨t, by simp [updStep, hq, hv], tsLtb_irrefl t⟩
    · exact ⟨v, by simp [updStep, hq, hv], by simpa using hv⟩

theorem updFold_ne_none (p : Ts) : ∀ (l : List Ts) (u : Option Ts) (t : Ts),
    t ∈ l → tsLtb p t = true → l.foldl (updStep p) u ≠ none := by
  intro l
  induction l with
  | nil => intro u t ht; cases ht
  | cons t0 rest ih =>
    intro u t ht hq
    rcases List.mem_cons.mp ht with rfl | hmem
    · obtain ⟨w, hw, _⟩ := updStep_qual p u t hq
      obtain ⟨w', hw'⟩ := updFold_some p rest w
      simp [hw, hw']
    · exact fun hc => ih _ t hmem hq (by simpa using hc)

theorem updFold_origin (p : Ts) : ∀ (l : List Ts) (u : Option Ts) (m : Ts),
    l.foldl (updStep p) u = some m → u = some m ∨ (m ∈ l ∧ tsLtb p m = true) := by
  intro l
  induction l with
  | nil => intro u m h; exact Or.inl h
  | cons t rest ih =>
    intro u m h
    rcases ih (updStep p u t) m (by simpa using h) with hstep | ⟨hmem, hq⟩
    · cases u with
      | none =>
        simp only [updStep] at hstep
        split at hstep
        · rename_i hq
          right
          obtain rfl : t = m := by simpa using hstep
          exact ⟨List.mem_cons_self t rest, hq⟩
        · simp at hstep
      | some v =>
        simp only [updStep] at hstep
        split at hstep
        · rename_i hq
          split at hstep
          · right
            obtain rfl : t = m := by simpa using hstep
            exact ⟨List.mem_cons_self t rest, hq⟩
          · exact Or.inl hstep
        · exact Or.inl hstep
    · exact Or.inr ⟨List.mem_cons_of_mem t hmem, hq⟩

theorem updStep_ge_acc (p : Ts) (v : Ts) (t : Ts) :
    ∀ w, updStep p (some v) t = some w → tsLtb w v = false := by
  intro w hw
  simp only [updStep] at hw
  split at hw
  · split at hw
    · rename_i hv
      obtain rfl : t = w := by simpa using hw
      exact tsLtb_asymm hv
    · obtain rfl : v = w := by simpa using hw
      exact tsLtb_irrefl _
  · obtain rfl : v = w := by simpa using hw
    exact tsLtb_irrefl _

theorem updFold_ub (p : Ts) : ∀ (l : List Ts) (u : Option Ts) (m : Ts),
    l.foldl (updStep p) u = some m →
    (∀ t ∈ l, tsLtb p t = true → tsLtb m t = false) ∧
    (∀ v, u = some v → tsLtb m v = false) := by
  intro l
  induction l with
  | nil =>
    intro u m h
    refine ⟨fun t ht => absurd ht (List.not_mem_nil t), fun v hv => ?_⟩
    rw [hv] at h
    obtain rfl : v = m := by simpa using h
    exact tsLtb_irrefl _
  | cons t0 rest ih =>
    intro u m h
    obtain ⟨ih1, ih2⟩ := ih (updStep p u t0) m (by simpa using h)
    constructor
    · intro t ht hq
      rcases List.mem_cons.mp ht with rfl | hmem
      · obtain ⟨w, hw, hwt⟩ := updStep_qual p u t hq
        exact tsLtb_false_trans (ih2 w hw) hwt
      · exact ih1 t hmem hq
    · intro v hv
      subst hv
      obtain ⟨w, hw⟩ := updStep_some p v t0
      exact tsLtb_false_trans (ih2 w hw) (updStep_ge_acc p v t0 w hw)

/-- C5: for every extracted Article, `updated` is the maximum of the plain
timestamps inside `LOGBOOK` drawers directly under the candidate's own
section that are strictly later than `published` (absent when no such
timestamp exists, hence strictly greater than `published` when present),
and the Article's content section no longer contains any `LOGBOOK` drawer
(every one has been detached). -/
theorem claim_C5 (h : Headline) (a : Article) (ds : List String)
    (hl : load_article h = (some a, ds)) :
    (a.updated = none → ∀ t ∈ logbookStarts h.sec, tsLtb a.published t = false) ∧
    (∀ m, a.updated = some m →
      tsLtb a.published m = true ∧ m ∈ logbookStarts h.sec ∧
      ∀ t ∈ logbookStarts h.sec, tsLtb a.published t = true → tsLtb m t = false) ∧
    a.content.sec = h.sec.filter (fun e => isLogbookDrawer e = false) := by
  obtain ⟨hb, ⟨sched, hpl, hplain⟩, hid, hne, hupd, hteq, hsub, hcont, hds⟩ :=
    load_article_some hl
  rw [scanUpdated_eq] at hupd
  refine ⟨?_, ?_, ?_⟩
  · intro hnone t ht
    by_contra hq
    rw [Bool.not_eq_false] at hq
    exact updFold_ne_none a.published _ none t ht hq (by rw [← hupd, hnone])
  · intro m hm
    rw [hm] at hupd
    rcases updFold_origin a.published _ none m hupd.symm with hc | ⟨hmem, hq⟩
    · cases hc
    · exact ⟨hq, hmem, (updFold_ub a.published _ none m hupd.symm).1⟩
  · rw [hcont]
    rfl

def wH5 : Headline :=
  .mk ⟨"t5", ["blog"], some (some (.active ⟨2020, 0⟩ false false)), [("ID", "x5")]⟩
    [.drawer "LOGBOOK"
       [.timestamp (.inactive ⟨2019, 0⟩ false false),
        .node [.timestamp (.active ⟨2022, 0⟩ false false)],
        .timestamp (.active ⟨2021, 0⟩ false false)],
     .leaf]
    []

def wA5 : Article :=
  { id := "x5", published := ⟨2020, 0⟩, updated := some ⟨2022, 0⟩, title := "t5",
    subids := [],
    content :=
      .mk ⟨"t5", ["blog"], some (some (.active ⟨2020, 0⟩ false false)), [("ID", "x5")]⟩
        [.leaf] [] }

theorem claim_C5_witness :
    tsLtb (⟨2020, 0⟩ : Ts) ⟨2022, 0⟩ = true ∧
    (⟨2022, 0⟩ : Ts) ∈ logbookStarts wH5.sec ∧
    wA5.content.sec = [.leaf] := by
  have h := claim_C5 wH5 wA5 [] rfl
  have h2 := h.2.1 ⟨2022, 0⟩ rfl
  exact ⟨h2.1, h2.2.1, h.2.2⟩

/-! ## C6: `last_update` is the max effective timestamp -/

/-- The value `load_org_data` leaves in `last_update` after one article:
the old value when the article's effective timestamp is not later,
otherwise the effective timestamp. -/
def optMax : Option Ts → Ts → Ts
  | some v, t => if tsLtb v t then t else v
  | none, t => t

theorem ingest_last_update (s : Site) (a : Article) :
    (ingest s a).last_update = some (optMax s.last_update (effectiveTs a)) := by
  cases h : s.last_update with
  | none => simp [ingest, optMax, h]
  | some lu =>
    by_cases hlt : tsLtb lu (effectiveTs a) = true
    · simp [ingest, optMax, h, hlt]
    · simp [ingest, optMax, h, hlt]

theorem optMax_ge_right (o : Option Ts) (t : Ts) : tsLtb (optMax o t) t = false := by
  cases o with
  | none => exact tsLtb_irrefl t
  | some v =>
    by_cases hv : tsLtb v t = true
    · simp [optMax, hv, tsLtb_irrefl]
    · simp only [optMax, hv, if_false]
      simpa using hv

theorem optMax_ge_left (v : Ts) (t : Ts) : tsLtb (optMax (some v) t) v = false := by
  by_cases hv : tsLtb v t = true
  · simp only [optMax, hv, if_true]
    exact tsLtb_asymm hv
  · simp only [optMax, hv, if_false, Bool.false_eq_true]
    exact tsLtb_irrefl v

theorem optMax_origin (o : Option Ts) (t : Ts) :
    optMax o t = t ∨ ∃ v, o = some v ∧ optMax o t = v := by
  cases o with
  | none => exact Or.inl rfl
  | some v =>
    by_cases hv : tsLtb v t = true
    · exact Or.inl (by simp [optMax, hv])
    · exact Or.inr ⟨v, rfl, by simp [optMax, hv]⟩

theorem lastUpdate_spec : ∀ (as : List Article) (s : Site),
    ((ingestAll s as).last_update = none ↔ (s.last_update = none ∧ as = [])) ∧
    (∀ m, (ingestAll s as).last_update = some m →
      (s.last_update = some m ∨ ∃ a ∈ as, effectiveTs a = m) ∧
      (∀ v, s.last_update = some v → tsLtb m v = false) ∧
      (∀ a ∈ as, tsLtb m (effectiveTs a) = false)) := by
  intro as
  induction as with
  | nil =>
    intro s
    refine ⟨by simp [ingestAll], ?_⟩
    intro m hm
    simp only [ingestAll, List.foldl_nil] at hm
    refine ⟨Or.inl hm, ?_, by simp⟩
    intro v hv
    rw [hv] at hm
    obtain rfl : v = m := by simpa using hm
    exact tsLtb_irrefl _
  | cons a as ih =>
    intro s
    have hstep : ingestAll s (a :: as) = ingestAll (ingest s a) as := rfl
    have hin := ingest_last_update s a
    constructor
    · rw [hstep, (ih (ingest s a)).1, hin]
      simp
    · intro m hm
      rw [hstep] at hm
      obtain ⟨ho, hge, hall⟩ := (ih (ingest s a)).2 m hm
      have hmax : tsLtb m (optMax s.last_update (effectiveTs a)) = false := by
        rcases ho with he | ⟨b, hb, he⟩
        · rw [hin] at he
          obtain rfl : optMax s.last_update (effectiveTs a) = m := by simpa using he
          exact tsLtb_irrefl _
        · exact hge _ hin
      refine ⟨?_, ?_, ?_⟩
      · rcases ho with he | ⟨b, hb, he⟩
        · rw [hin] at he
          obtain rfl : optMax s.last_update (effectiveTs a) = m := by simpa using he
          rcases optMax_origin s.last_update (effectiveTs a) with h1 | ⟨v, hv, h1⟩
          · exact Or.inr ⟨a, List.mem_cons_self a as, h1.symm⟩
          · rw [← h1] at hv
            exact Or.inl hv
        · exact Or.inr ⟨b, List.mem_cons_of_mem a hb, he⟩
      · intro v hv
        have h1 : tsLtb (optMax s.last_update (effectiveTs a)) v = false := by
          rw [hv]; exact optMax_ge_left v (effectiveTs a)
        exact tsLtb_false_trans hmax h1
      · intro b hb
        rcases List.mem_cons.mp hb with rfl | hmem
        · exact tsLtb_false_trans hmax (optMax_ge_right s.last_update (effectiveTs b))
        · exact hall b hmem

/-- C6: starting from a fresh Site, after ingesting any list of Articles
`last_update` is `none` exactly when no Article was ingested, and
otherwise is the maximum of the ingested Articles' effective timestamps
(`updated` if present, else `published`): it is one of them and not less
than any of them. -/
theorem claim_C6 (as : List Article) :
    ((ingestAll emptySite as).last_update = none ↔ as = []) ∧
    (∀ m, (ingestAll emptySite as).last_update = some m →
      (∃ a ∈ as, effectiveTs a = m) ∧ ∀ a ∈ as, tsLtb m (effectiveTs a) = false) := by
  obtain ⟨h1, h2⟩ := lastUpdate_spec as emptySite
  constructor
  · rw [h1]
    simp [emptySite, Site.new]
  · intro m hm
    obtain ⟨ho, _, hall⟩ := h2 m hm
    rcases ho with he | hex
    · cases he
    · exact ⟨hex, hall⟩

def wLeafH : Headline := .mk ⟨"w", [], none, []⟩ [] []

def wA6a : Article :=
  { id := "a6", published := ⟨2020, 0⟩, updated := some ⟨2023, 0⟩, title := "a6",
    subids := [], content := wLeafH }

def wA6b : Article :=
  { id := "b6", published := ⟨2021, 0⟩, updated := none, title := "b6",
    subids := [], content := wLeafH }

theorem claim_C6_witness :
    (∃ a ∈ [wA6a, wA6b], effectiveTs a = ⟨2023, 0⟩) ∧
    ∀ a ∈ [wA6a, wA6b], tsLtb ⟨2023, 0⟩ (effectiveTs a) = false :=
  (claim_C6 [wA6a, wA6b]).2 ⟨2023, 0⟩ rfl

/-! ## C9: PRIVATE redaction prunes whole subtrees before rendering -/

theorem removePrivate_title (h : Headline) : (removePrivate h).title = h.title := by
  cases h; rfl

mutual
theorem headlinesOf_removePrivate : ∀ (h : Headline),
    headlinesOf (removePrivate h) = (goodDesc h).map removePrivate
  | .mk t s cs => by
    simp only [removePrivate, headlinesOf, goodDesc]
    exact headlinesList_filterPrivate cs

theorem headlinesList_filterPrivate : ∀ (cs : List Headline),
    headlinesList (filterPrivate cs) = (goodDescList cs).map removePrivate
  | [] => rfl
  | c :: rest => by
    by_cases hp : c.title.tags.contains "PRIVATE" = true
    · simp only [filterPrivate, goodDescList, hp, if_true]
      exact headlinesList_filterPrivate rest
    · simp only [filterPrivate, goodDescList, hp, if_false, Bool.false_eq_true]
      simp only [headlinesList, List.map_cons, List.map_append]
      rw [headlinesOf_removePrivate c, headlinesList_filterPrivate rest]
end

mutual
theorem goodDesc_not_private : ∀ (h : Headline), ∀ p ∈ goodDesc h,
    p.title.tags.contains "PRIVATE" = false
  | .mk t s cs => by
    simp only [goodDesc]
    exact goodDescList_not_private cs

theorem goodDescList_not_private : ∀ (cs : List Headline), ∀ p ∈ goodDescList cs,
    p.title.tags.contains "PRIVATE" = false
  | [] => by intro p hp; cases hp
  | c :: rest => by
    intro p hp
    by_cases hc : c.title.tags.contains "PRIVATE" = true
    · simp only [goodDescList, hc, if_true] at hp
      exact goodDescList_not_private rest p hp
    · simp only [goodDescList, hc, if_false, Bool.false_eq_true] at hp
      rcases List.mem_cons.mp hp with rfl | hp'
      · simpa using hc
      · rcases List.mem_append.mp hp' with h1 | h2
        · exact goodDesc_not_private c p h1
        · exact goodDescList_not_private rest p h2
end

/-- C9: for every extracted Article, the strict-descendant traversal of
its content (what rendering walks) is exactly the original headline's
descendants reachable without entering any `PRIVATE`-tagged subtree, each
recursively pruned the same way; in particular no headline of the rendered
content carries the `PRIVATE` tag, and nothing inside a `PRIVATE` subtree
survives (the pruning happens inside `load_article`, before any
rendering). -/
theorem claim_C9 (h : Headline) (a : Article) (ds : List String)
    (hl : load_article h = (some a, ds)) :
    headlinesOf a.content = (goodDesc h).map removePrivate ∧
    (∀ p ∈ goodDesc h, p.title.tags.contains "PRIVATE" = false) ∧
    (∀ p ∈ headlinesOf a.content, p.title.tags.contains "PRIVATE" = false) := by
  obtain ⟨hb, hsched, hid, hne, hupd, hteq, hsub, hcont, hds⟩ := load_article_some hl
  cases h with
  | mk t s cs =>
    have h1 : headlinesOf a.content = (goodDescList cs).map removePrivate := by
      rw [hcont]
      have := headlinesOf_removePrivate
        (.mk (Headline.title (.mk t s cs))
          ((Headline.sec (.mk t s cs)).filter (fun e => isLogbookDrawer e = false))
          (Headline.children (.mk t s cs)))
      simpa only [goodDesc] using this
    refine ⟨?_, ?_, ?_⟩
    · simpa only [goodDesc] using h1
    · simpa only [goodDesc] using goodDescList_not_private cs
    · intro p hp
      rw [h1] at hp
      obtain ⟨q, hq, rfl⟩ := List.mem_map.mp hp
      rw [removePrivate_title]
      exact goodDescList_not_private cs q hq

def wH9c1 : Headline := .mk ⟨"c1", [], none, [("ID", "s1")]⟩ [] []

def wH9c3 : Headline := .mk ⟨"c3", [], none, []⟩ [] []

def wH9c2 : Headline := .mk ⟨"c2", ["PRIVATE"], none, [("ID", "s2")]⟩ [] [wH9c3]

def wH9 : Headline :=
  .mk ⟨"t9", ["blog"], some (some (.active ⟨2020, 1⟩ false false)), [("ID", "x9")]⟩ []
    [wH9c1, wH9c2]

def wA9 : Article :=
  { id := "x9", published := ⟨2020, 1⟩, updated := none, title := "t9",
    subids := ["s1", "s2"],
    content :=
      .mk ⟨"t9", ["blog"], some (some (.active ⟨2020, 1⟩ false false)), [("ID", "x9")]⟩ []
        [wH9c1] }

theorem claim_C9_witness :
    headlinesOf wA9.content = (goodDesc wH9).map removePrivate ∧
    ∀ p ∈ headlinesOf wA9.content, p.title.tags.contains "PRIVATE" = false := by
  have h := claim_C9 wH9 wA9 [] rfl
  exact ⟨h.1, h.2.2⟩

/-! ## Map/lookup lemmas for the site index -/

theorem strCmp_gt_ne {k k' : String} (hc : strCmp k k' = .gt) : k ≠ k' := by
  intro he
  rw [strCmp_eq_eq.mpr he] at hc
  cases hc

theorem mapLookup_mapInsert_self {α : Type} : ∀ (m : List (String × α)) (k : String) (v : α),
    mapLookup (mapInsert m k v) k = some v
  | [], k, v => by simp [mapInsert, mapLookup]
  | (k', v') :: rest, k, v => by
    unfold mapInsert
    cases hc : strCmp k k' with
    | lt => simp [mapLookup]
    | eq =>
      have hk : k = k' := strCmp_eq_eq.mp hc
      simp [mapLookup, hk]
    | gt =>
      have hne : k ≠ k' := strCmp_gt_ne hc
      simp only [mapLookup, if_neg hne]
      exact mapLookup_mapInsert_self rest k v

theorem mapLookup_mapInsert_ne {α : Type} : ∀ (m : List (String × α)) (k j : String) (v : α),
    j ≠ k → mapLookup (mapInsert m k v) j = mapLookup m j
  | [], k, j, v, hne => by simp [mapInsert, mapLookup, hne]
  | (k', v') :: rest, k, j, v, hne => by
    unfold mapInsert
    cases hc : strCmp k k' with
    | lt => simp [mapLookup, hne]
    | eq =>
      have hk : k = k' := strCmp_eq_eq.mp hc
      subst hk
      simp [mapLookup, hne]
    | gt =>
      by_cases hj : j = k'
      · simp [mapLookup, hj]
      · simp only [mapLookup, if_neg hj]
        exact mapLookup_mapInsert_ne rest k j v hne

theorem subidFold_notmem : ∀ (sids : List String) (m : List (String × String)) (c : String)
    (i : String), i ∉ sids →
    mapLookup (sids.foldl (fun m sid => mapInsert m sid c) m) i = mapLookup m i := by
  intro sids
  induction sids with
  | nil => intro m c i _; rfl
  | cons sid rest ih =>
    intro m c i hni
    have h1 : i ∉ rest := fun hr => hni (List.mem_cons_of_mem sid hr)
    have h2 : i ≠ sid := fun he => hni (he ▸ List.mem_cons_self sid rest)
    simp only [List.foldl_cons]
    rw [ih (mapInsert m sid c) c i h1]
    exact mapLookup_mapInsert_ne m sid i c h2

theorem subidFold_lookup : ∀ (sids : List String) (m : List (String × String)) (c : String)
    (i : String), i ∈ sids →
    mapLookup (sids.foldl (fun m sid => mapInsert m sid c) m) i = some c := by
  intro sids
  induction sids with
  | nil => intro m c i hi; cases hi
  | cons sid rest ih =>
    intro m c i hi
    by_cases hr : i ∈ rest
    · simp only [List.foldl_cons]
      exact ih (mapInsert m sid c) c i hr
    · have h2 : i = sid := by
        rcases List.mem_cons.mp hi with he | he
        · exact he
        · exact absurd he hr
      subst h2
      simp only [List.foldl_cons]
      rw [subidFold_notmem rest (mapInsert m i c) c i hr]
      exact mapLookup_mapInsert_self m i c

/-! ## C10: sub-ids are collected before redaction and stay linkable -/

theorem isPrefixOf_append_self : ∀ (p s : List Char), p.isPrefixOf (p ++ s) = true
  | [], s => by cases s <;> rfl
  | a :: as, s => by simp [List.isPrefixOf, isPrefixOf_append_self as s]

theorem hasPfx_append (p s : String) : hasPfx p (p ++ s) = true := by
  unfold hasPfx
  rw [strData_append]
  exact isPrefixOf_append_self _ _

theorem strDrop_id_append (i : String) : strDrop ("id:" ++ i) 3 = i := by
  cases i with
  | mk dta =>
    unfold strDrop
    rw [strData_append]
    exact congrArg String.mk (by simpa using List.drop_left "id:".data dta)

/-- C10: sub-id collection happens before redaction: the identifier of a
`PRIVATE`-tagged descendant headline (later detached) is still in the
Article's `subids`; ingesting the Article registers it in the sub-id map;
and, as long as the identifier is not also a top-level article id, an
`id:` link naming it resolves to an anchor to the owning article's path
with that identifier as fragment — not to the not-found diagnostic. -/
theorem claim_C10 (h : Headline) (a : Article) (ds : List String) (d : Headline) (i : String)
    (hl : load_article h = (some a, ds))
    (hd : d ∈ headlinesOf h) (hpriv : d.title.tags.contains "PRIVATE" = true)
    (hgi : get_id d.title = some i)
    (s0 : Site) (base : String) (parse : String → UrlParse) (desc : Option String) :
    i ∈ a.subids ∧
    mapLookup (ingest s0 a).subid_map i = some a.id ∧
    (mapLookup (ingest s0 a).articles i = none →
      handleLink (ingest s0 a) base parse ("id:" ++ i) desc =
        (.anchor (base ++ id_to_path a.id ++ "#" ++ i) (desc.getD ("id:" ++ i)), [])) := by
  obtain ⟨hb, hsched, hid, hne0, hupd, hteq, hsub, hcont, hds⟩ := load_article_some hl
  have hmem : i ∈ a.subids := by
    rw [hsub]
    unfold collect_ids
    exact List.mem_filterMap.mpr ⟨d, hd, hgi⟩
  have hsubmap : mapLookup (ingest s0 a).subid_map i = some a.id :=
    subidFold_lookup a.subids s0.subid_map a.id i hmem
  refine ⟨hmem, hsubmap, ?_⟩
  intro hA
  rw [handleLink, if_pos (hasPfx_append "id:" i), strDrop_id_append]
  simp only [hA, hsubmap]

def wH10p : Headline := .mk ⟨"p10", ["PRIVATE"], none, [("ID", "sp10")]⟩ [] []

def wH10 : Headline :=
  .mk ⟨"t10", ["blog"], some (some (.inactive ⟨2022, 7⟩ false false)), [("ID", "x10")]⟩ []
    [wH10p]

def wA10 : Article :=
  { id := "x10", published := ⟨2022, 7⟩, updated := none, title := "t10",
    subids := ["sp10"],
    content :=
      .mk ⟨"t10", ["blog"], some (some (.inactive ⟨2022, 7⟩ false false)), [("ID", "x10")]⟩
        [] [] }

theorem claim_C10_witness :
    "sp10" ∈ wA10.subids ∧
    mapLookup (ingest emptySite wA10).subid_map "sp10" = some "x10" ∧
    handleLink (ingest emptySite wA10) "B/" (fun _ => .ok) ("id:" ++ "sp10") none =
      (.anchor ("B/" ++ id_to_path "x10" ++ "#" ++ "sp10")
        ((none : Option String).getD ("id:" ++ "sp10")), []) := by
  have h := claim_C10 wH10 wA10 [] wH10p "sp10" rfl
    (by rw [show headlinesOf wH10 = [wH10p] from rfl]; exact List.mem_cons_self _ _)
    rfl rfl emptySite "B/" (fun _ => .ok) none
  exact ⟨h.1, h.2.1, h.2.2 rfl⟩

/-! ## C7: resolution of `id:` links -/

theorem mapLookup_mapInsert_cases {α : Type} : ∀ (m : List (String × α)) (k0 : String) (v : α)
    (k : String) (b : α), mapLookup (mapInsert m k0 v) k = some b →
    (k = k0 ∧ b = v) ∨ mapLookup m k = some b
  | [], k0, v, k, b => by
    intro h
    simp only [mapInsert, mapLookup] at h
    split at h
    · rename_i hk
      obtain rfl : v = b := by simpa using h
      exact Or.inl ⟨hk, rfl⟩
    · cases h
  | (k', v') :: rest, k0, v, k, b => by
    intro h
    unfold mapInsert at h
    cases hc : strCmp k0 k' with
    | lt =>
      rw [hc] at h
      simp only [mapLookup] at h
      split at h
      · rename_i hk
        obtain rfl : v = b := by simpa using h
        exact Or.inl ⟨hk, rfl⟩
      · exact Or.inr h
    | eq =>
      have hk : k0 = k' := strCmp_eq_eq.mp hc
      rw [hc] at h
      simp only [mapLookup] at h
      split at h
      · rename_i hkk
        obtain rfl : v = b := by simpa using h
        exact Or.inl ⟨hkk.trans hk.symm, rfl⟩
      · rename_i hkk
        exact Or.inr (by simp [mapLookup, hkk, h])
    | gt =>
      rw [hc] at h
      simp only [mapLookup] at h
      split at h
      · rename_i hkk
        exact Or.inr (by simp [mapLookup, hkk, h])
      · rename_i hkk
        rcases mapLookup_mapInsert_cases rest k0 v k b h with h1 | h1
        · exact Or.inl h1
        · exact Or.inr (by simp [mapLookup, hkk, h1])

/-- In a site built by ingestion, every article stored in `by_id` sits
under its own id as key. -/
theorem ingestAll_articles_id : ∀ (as : List Article) (s : Site),
    (∀ k b, mapLookup s.articles k = some b → b.id = k) →
    ∀ k b, mapLookup (ingestAll s as).articles k = some b → b.id = k := by
  intro as
  induction as with
  | nil => intro s hs; exact hs
  | cons a rest ih =>
    intro s hs
    refine ih (ingest s a) ?_
    intro k b hb
    rcases mapLookup_mapInsert_cases s.articles a.id a k b hb with ⟨rfl, rfl⟩ | h1
    · rfl
    · exact hs k b h1

/-- C7: for a link whose raw target is `"id:" ++ i`, against a site built
by ingestion: if `i` is a stored top-level article id the output is an
anchor to `base ++ path(article)` (no diagnostic); otherwise if `i` is a
registered sub-id the output is an anchor to
`base ++ path(owning article id) ++ "#" ++ i` (no diagnostic); otherwise
the output is just the display text (the raw target when there is none),
with no anchor, plus exactly one not-found diagnostic. -/
theorem claim_C7 (as : List Article) (base : String) (parse : String → UrlParse)
    (i : String) (desc : Option String) :
    (∀ a, mapLookup (ingestAll emptySite as).articles i = some a →
      handleLink (ingestAll emptySite as) base parse ("id:" ++ i) desc =
        (.anchor (base ++ id_to_path a.id) (desc.getD ("id:" ++ i)), [])) ∧
    (mapLookup (ingestAll emptySite as).articles i = none →
      ∀ aid, mapLookup (ingestAll emptySite as).subid_map i = some aid →
      handleLink (ingestAll emptySite as) base parse ("id:" ++ i) desc =
        (.anchor (base ++ id_to_path aid ++ "#" ++ i) (desc.getD ("id:" ++ i)), [])) ∧
    (mapLookup (ingestAll emptySite as).articles i = none →
      mapLookup (ingestAll emptySite as).subid_map i = none →
      handleLink (ingestAll emptySite as) base parse ("id:" ++ i) desc =
        (.plain (desc.getD ("id:" ++ i)), ["id:" ++ i ++ " not found"])) := by
  refine ⟨?_, ?_, ?_⟩
  · intro a ha
    have hai : a.id = i :=
      ingestAll_articles_id as emptySite (by intro k b hb; cases hb) i a ha
    rw [handleLink, if_pos (hasPfx_append "id:" i), strDrop_id_append]
    simp only [ha, hai]
  · intro hA aid hS
    rw [handleLink, if_pos (hasPfx_append "id:" i), strDrop_id_append]
    simp only [hA, hS]
  · intro hA hS
    rw [handleLink, if_pos (hasPfx_append "id:" i), strDrop_id_append]
    simp only [hA, hS]

def wA7 : Article :=
  { id := "q7", published := ⟨2020, 0⟩, updated := none, title := "q7",
    subids := ["sq7"], content := wLeafH }

theorem claim_C7_witness :
    handleLink (ingestAll emptySite [wA7]) "B/" (fun _ => .ok) ("id:" ++ "q7") none =
      (.anchor ("B/" ++ id_to_path wA7.id) ((none : Option String).getD ("id:" ++ "q7")), []) ∧
    handleLink (ingestAll emptySite [wA7]) "B/" (fun _ => .ok) ("id:" ++ "sq7") none =
      (.anchor ("B/" ++ id_to_path "q7" ++ "#" ++ "sq7")
        ((none : Option String).getD ("id:" ++ "sq7")), []) ∧
    handleLink (ingestAll emptySite [wA7]) "B/" (fun _ => .ok) ("id:" ++ "zz") none =
      (.plain ((none : Option String).getD ("id:" ++ "zz")), ["id:" ++ "zz" ++ " not found"]) := by
  refine ⟨?_, ?_, ?_⟩
  · exact (claim_C7 [wA7] "B/" (fun _ => .ok) "q7" none).1 wA7 rfl
  · exact (claim_C7 [wA7] "B/" (fun _ => .ok) "sq7" none).2.1 rfl "q7" rfl
  · exact (claim_C7 [wA7] "B/" (fun _ => .ok) "zz" none).2.2 rfl rfl

/-! ## C8: plain links — base prefixing and image thumbnails -/

theorem handleLink_else (s : Site) (base : String) (parse : String → UrlParse)
    (path : String) (desc : Option String)
    (hid : hasPfx "id:" path = false) (hfile : hasPfx "file:" path = false) :
    handleLink s base parse path desc =
      (let path' := if parse path = .relativeNoBase then base ++ path else path
       if isImagePath path' then (.image path' path', []) else (.delegate path' desc, [])) := by
  rw [handleLink, if_neg (by simp [hid]), dif_neg (by simp [hfile])]

/-- C8: for a link target matching neither the `id:` nor the `file:` rule,
the base is prepended exactly when the URL parse outcome is
`RelativeUrlWithoutBase`; then, if the final target's extension (after the
last `.` of the part after the last `/`) is one of jpeg/jpg/png/svg, the
output is an anchor-wrapped image whose href and src are both that final
target; otherwise the link is delegated to the inner handler with the
final target.  No diagnostic in any case. -/
theorem claim_C8 (s : Site) (base : String) (parse : String → UrlParse) (path : String)
    (desc : Option String)
    (hid : hasPfx "id:" path = false) (hfile : hasPfx "file:" path = false) :
    (parse path = .relativeNoBase →
      (isImagePath (base ++ path) = true →
        handleLink s base parse path desc = (.image (base ++ path) (base ++ path), [])) ∧
      (isImagePath (base ++ path) = false →
        handleLink s base parse path desc = (.delegate (base ++ path) desc, []))) ∧
    (parse path ≠ .relativeNoBase →
      (isImagePath path = true →
        handleLink s base parse path desc = (.image path path, [])) ∧
      (isImagePath path = false →
        handleLink s base parse path desc = (.delegate path desc, []))) := by
  refine ⟨fun hp => ⟨fun himg => ?_, fun himg => ?_⟩,
          fun hp => ⟨fun himg => ?_, fun himg => ?_⟩⟩ <;>
    rw [handleLink_else s base parse path desc hid hfile] <;>
    simp [hp, himg]

def wParse : String → UrlParse := fun p => if p = "pic.png" then .relativeNoBase else .ok

theorem claim_C8_witness :
    handleLink emptySite "B/" wParse "pic.png" none = (.image "B/pic.png" "B/pic.png", []) ∧
    handleLink emptySite "B/" wParse "doc.txt" (some "d") =
      (.delegate "doc.txt" (some "d"), []) := by
  constructor
  · exact ((claim_C8 emptySite "B/" wParse "pic.png" none rfl rfl).1 rfl).1 rfl
  · exact ((claim_C8 emptySite "B/" wParse "doc.txt" (some "d") rfl rfl).2 (by decide)).2 rfl

/-! ## C1: duplicate ids — by_id overwrites, by_year does not -/

theorem mem_foldrAppend {l : List (Int × List Article)} {x : Article} :
    x ∈ l.foldr (fun yb acc => yb.2 ++ acc) [] ↔ ∃ p ∈ l, x ∈ p.2 := by
  induction l with
  | nil => simp
  | cons p rest ih => simp [List.mem_append, ih]

def wA1 : Article :=
  { id := "dup", published := ⟨2020, 0⟩, updated := none, title := "first",
    subids := [], content := wLeafH }

def wA1b : Article :=
  { id := "dup", published := ⟨2021, 0⟩, updated := none, title := "second",
    subids := [], content := wLeafH }

/-- C1 counterexample: two ingested articles share the id `"dup"` but have
different published years.  After both insertions `by_id` does hold the
later one, but the earlier article is still present in the year-2020
bucket of `by_year` — it has not been replaced anywhere in the index, so
the claim that the earlier article is no longer present in any `by_year`
bucket is false. -/
theorem claim_C1_counterexample :
    wA1.id = wA1b.id ∧
    wA1 ≠ wA1b ∧
    mapLookup (ingestAll emptySite [wA1, wA1b]).articles wA1.id = some wA1b ∧
    (ingestAll emptySite [wA1, wA1b]).index = [(2020, [wA1]), (2021, [wA1b])] ∧
    wA1 ∈ (ingestAll emptySite [wA1, wA1b]).bucketArticles := by
  refine ⟨rfl, ?_, rfl, rfl, ?_⟩
  · intro h
    have : wA1.title = wA1b.title := congrArg Article.title h
    simp [wA1, wA1b] at this
  · rw [show (ingestAll emptySite [wA1, wA1b]).bucketArticles = [wA1, wA1b] from rfl]
    exact List.mem_cons_self _ _

/-- C1 amended: when two ingested Articles share an Id, the later one does
overwrite the earlier in `by_id`; but in `by_year` the earlier is never
removed: if both share the same `published` timestamp the owning year
bucket still holds exactly the earlier-inserted Article
(`BTreeSet::insert` keeps the old element), and if `published` differs
both Articles remain present in the year buckets. -/
theorem claim_C1_amended (a b : Article) (hid : a.id = b.id) :
    mapLookup (ingestAll emptySite [a, b]).articles b.id = some b ∧
    (a.published = b.published →
      (ingestAll emptySite [a, b]).index = [(a.published.year, [a])]) ∧
    (a.published ≠ b.published →
      a ∈ (ingestAll emptySite [a, b]).bucketArticles ∧
      b ∈ (ingestAll emptySite [a, b]).bucketArticles) := by
  have he : strCmp b.id a.id = .eq := strCmp_eq_eq.mpr hid.symm
  have h1 : (ingestAll emptySite [a, b]).articles = [(a.id, b)] := by
    show mapInsert [(a.id, a)] b.id b = [(a.id, b)]
    unfold mapInsert
    rw [he]
  refine ⟨?_, ?_, ?_⟩
  · rw [h1]
    simp [mapLookup, hid.symm]
  · intro hpub
    have hc : artCmp b a = .eq := by
      unfold artCmp
      rw [if_neg (by simp [hpub]), he]
    show bucketInsert [(a.published.year, [a])] b.published.year b = [(a.published.year, [a])]
    rw [show b.published.year = a.published.year by rw [hpub]]
    unfold bucketInsert
    rw [if_neg (lt_irrefl _), if_pos rfl]
    show [(a.published.year, setInsert [a] b)] = [(a.published.year, [a])]
    unfold setInsert
    rw [hc]
  · intro hne
    have hca : artCmp b a = tsCmp b.published a.published := by
      unfold artCmp
      rw [if_pos (fun h => hne h.symm)]
    rcases lt_trichotomy b.published.year a.published.year with hy | hy | hy
    · have hidx : (ingestAll emptySite [a, b]).index =
          [(b.published.year, [b]), (a.published.year, [a])] := by
        show bucketInsert [(a.published.year, [a])] b.published.year b = _
        unfold bucketInsert
        rw [if_pos hy]
      constructor
      · exact mem_foldrAppend.mpr ⟨(a.published.year, [a]), by rw [hidx]; simp, by simp⟩
      · exact mem_foldrAppend.mpr ⟨(b.published.year, [b]), by rw [hidx]; simp, by simp⟩
    · rcases hcc : tsCmp b.published a.published with _ | _ | _
      case eq => exact absurd (tsCmp_eq_eq.mp hcc).symm hne
      case lt =>
        have hidx : (ingestAll emptySite [a, b]).index =
            [(a.published.year, [b, a])] := by
          show bucketInsert [(a.published.year, [a])] b.published.year b = _
          unfold bucketInsert
          rw [hy, if_neg (lt_irrefl _), if_pos rfl]
          show [(a.published.year, setInsert [a] b)] = _
          unfold setInsert
          rw [hca, hcc]
        constructor
        · exact mem_foldrAppend.mpr ⟨(a.published.year, [b, a]), by rw [hidx]; simp, by simp⟩
        · exact mem_foldrAppend.mpr ⟨(a.published.year, [b, a]), by rw [hidx]; simp, by simp⟩
      case gt =>
        have hidx : (ingestAll emptySite [a, b]).index =
            [(a.published.year, [a, b])] := by
          show bucketInsert [(a.published.year, [a])] b.published.year b = _
          unfold bucketInsert
          rw [hy, if_neg (lt_irrefl _), if_pos rfl]
          show [(a.published.year, setInsert [a] b)] = _
          unfold setInsert
          rw [hca, hcc]
          rfl
        constructor
        · exact mem_foldrAppend.mpr ⟨(a.published.year, [a, b]), by rw [hidx]; simp, by simp⟩
        · exact mem_foldrAppend.mpr ⟨(a.published.year, [a, b]), by rw [hidx]; simp, by simp⟩
    · have hidx : (ingestAll emptySite [a, b]).index =
          [(a.published.year, [a]), (b.published.year, [b])] := by
        show bucketInsert [(a.published.year, [a])] b.published.year b = _
        unfold bucketInsert
        rw [if_neg (by omega), if_neg (by omega)]
        rfl
      constructor
      · exact mem_foldrAppend.mpr ⟨(a.published.year, [a]), by rw [hidx]; simp, by simp⟩
      · exact mem_foldrAppend.mpr ⟨(b.published.year, [b]), by rw [hidx]; simp, by simp⟩

theorem claim_C1_amended_witness :
    mapLookup (ingestAll emptySite [wA1, wA1b]).articles wA1b.id = some wA1b ∧
    wA1 ∈ (ingestAll emptySite [wA1, wA1b]).bucketArticles ∧
    wA1b ∈ (ingestAll emptySite [wA1, wA1b]).bucketArticles := by
  have h := claim_C1_amended wA1 wA1b rfl
  exact ⟨h.1, (h.2.2 (by decide)).1, (h.2.2 (by decide)).2⟩

/-! ## C2: ordering lemmas for the year-bucket index -/

theorem artCmp_lt_iff {x y : Article} :
    artCmp x y = .lt ↔
      (tsLtb x.published y.published = true ∨
       (x.published = y.published ∧ strCmp x.id y.id = .lt)) := by
  unfold artCmp
  by_cases hp : x.published = y.published
  · rw [if_neg (by simp [hp])]
    simp [hp, tsLtb_irrefl]
  · rw [if_pos hp, tsCmp_eq_lt]
    constructor
    · exact Or.inl
    · rintro (h | ⟨he, _⟩)
      · exact h
      · exact absurd he hp

theorem artCmp_lt_trans {x y z : Article} (h1 : artCmp x y = .lt) (h2 : artCmp y z = .lt) :
    artCmp x z = .lt := by
  rw [artCmp_lt_iff] at *
  rcases h1 with h1 | ⟨e1, s1⟩ <;> rcases h2 with h2 | ⟨e2, s2⟩
  · exact Or.inl (tsLtb_trans h1 h2)
  · exact Or.inl (by rw [← e2]; exact h1)
  · exact Or.inl (by rw [e1]; exact h2)
  · exact Or.inr ⟨e1.trans e2, strCmp_lt_trans s1 s2⟩

theorem artCmp_gt_iff_lt {x y : Article} : artCmp x y = .gt ↔ artCmp y x = .lt := by
  unfold artCmp
  by_cases hp : x.published = y.published
  · rw [if_neg (by simp [hp]), if_neg (by simp [hp.symm])]
    exact strCmp_gt_iff_lt
  · rw [if_pos hp, if_pos (fun h => hp h.symm), tsCmp_eq_gt, tsCmp_eq_lt]

theorem artCmp_lt_of_year_lt {x y : Article} (h : x.published.year < y.published.year) :
    artCmp x y = .lt := by
  apply artCmp_lt_iff.mpr
  left
  simp only [tsLtb, Bool.or_eq_true, Bool.and_eq_true, decide_eq_true_eq, beq_iff_eq]
  omega

theorem setInsert_mem : ∀ (l : List Article) (a x : Article),
    x ∈ setInsert l a → x = a ∨ x ∈ l
  | [], a, x => by
    intro h
    simp only [setInsert] at h
    simpa using h
  | b :: rest, a, x => by
    intro h
    unfold setInsert at h
    cases hc : artCmp a b with
    | lt =>
      rw [hc] at h
      rcases List.mem_cons.mp h with rfl | h1
      · exact Or.inl rfl
      · exact Or.inr h1
    | eq =>
      rw [hc] at h
      exact Or.inr h
    | gt =>
      rw [hc] at h
      rcases List.mem_cons.mp h with rfl | h1
      · exact Or.inr (List.mem_cons_self _ _)
      · rcases setInsert_mem rest a x h1 with h2 | h2
        · exact Or.inl h2
        · exact Or.inr (List.mem_cons_of_mem _ h2)

theorem setInsert_sorted : ∀ (l : List Article) (a : Article),
    (l.Pairwise fun u v => artCmp u v = .lt) →
    (setInsert l a).Pairwise fun u v => artCmp u v = .lt
  | [], a, _ => by simp [setInsert]
  | b :: rest, a, h => by
    obtain ⟨hb, hrest⟩ := List.pairwise_cons.mp h
    unfold setInsert
    cases hc : artCmp a b with
    | lt =>
      refine List.pairwise_cons.mpr ⟨?_, h⟩
      intro y hy
      rcases List.mem_cons.mp hy with rfl | hy'
      · exact hc
      · exact artCmp_lt_trans hc (hb y hy')
    | eq => exact h
    | gt =>
      refine List.pairwise_cons.mpr ⟨?_, setInsert_sorted rest a hrest⟩
      intro y hy
      rcases setInsert_mem rest a y hy with rfl | hy'
      · exact artCmp_gt_iff_lt.mp hc
      · exact hb y hy'

/-- The invariant `load_org_data` maintains on the `by_year` index: year
keys strictly ascending, each bucket strictly sorted by the `Article`
order, and each bucket holding only articles published in its year. -/
def IndexInv (idx : List (Int × List Article)) : Prop :=
  (idx.Pairwise fun p q => p.1 < q.1) ∧
  ∀ p ∈ idx, (p.2.Pairwise fun u v => artCmp u v = .lt) ∧ ∀ x ∈ p.2, x.published.year = p.1

theorem bucketInsert_shape : ∀ (idx : List (Int × List Article)) (y : Int) (a : Article),
    ∀ q ∈ bucketInsert idx y a,
      (q.1 = y ∨ ∃ p ∈ idx, q.1 = p.1) ∧ (∀ x ∈ q.2, x = a ∨ ∃ p ∈ idx, x ∈ p.2)
  | [], y, a => by
    intro q hq
    simp only [bucketInsert] at hq
    rcases List.mem_cons.mp hq with rfl | h
    · exact ⟨Or.inl rfl, by simp⟩
    · cases h
  | (y', b) :: rest, y, a => by
    intro q hq
    unfold bucketInsert at hq
    split at hq
    · rcases List.mem_cons.mp hq with rfl | h
      · exact ⟨Or.inl rfl, by simp⟩
      · rcases List.mem_cons.mp h with rfl | h'
        · exact ⟨Or.inr ⟨(y', b), by simp, rfl⟩, fun x hx => Or.inr ⟨(y', b), by simp, hx⟩⟩
        · refine ⟨Or.inr ⟨q, List.mem_cons_of_mem _ h', rfl⟩, fun x hx =>
            Or.inr ⟨q, List.mem_cons_of_mem _ h', hx⟩⟩
    · split at hq
      · rcases List.mem_cons.mp hq with rfl | h'
        · refine ⟨Or.inr ⟨(y', b), by simp, rfl⟩, ?_⟩
          intro x hx
          rcases setInsert_mem b a x hx with rfl | h2
          · exact Or.inl rfl
          · exact Or.inr ⟨(y', b), by simp, h2⟩
        · refine ⟨Or.inr ⟨q, List.mem_cons_of_mem _ h', rfl⟩, fun x hx =>
            Or.inr ⟨q, List.mem_cons_of_mem _ h', hx⟩⟩
      · rcases List.mem_cons.mp hq with rfl | h'
        · exact ⟨Or.inr ⟨(y', b), by simp, rfl⟩, fun x hx => Or.inr ⟨(y', b), by simp, hx⟩⟩
        · obtain ⟨hk, hx⟩ := bucketInsert_shape rest y a q h'
          refine ⟨?_, ?_⟩
          · rcases hk with h1 | ⟨p, hp, h1⟩
            · exact Or.inl h1
            · exact Or.inr ⟨p, List.mem_cons_of_mem _ hp, h1⟩
          · intro x hxx
            rcases hx x hxx with h1 | ⟨p, hp, h1⟩
            · exact Or.inl h1
            · exact Or.inr ⟨p, List.mem_cons_of_mem _ hp, h1⟩

theorem bucketInsert_inv : ∀ (idx : List (Int × List Article)) (a : Article),
    IndexInv idx → IndexInv (bucketInsert idx a.published.year a)
  | [], a, _ => by
    constructor
    · simp [bucketInsert]
    · intro p hp
      simp only [bucketInsert] at hp
      rcases List.mem_cons.mp hp with rfl | h
      · exact ⟨by simp, by simp⟩
      · cases h
  | (y', b) :: rest, a, hinv => by
    obtain ⟨hkeys, hbuckets⟩ := hinv
    obtain ⟨hk1, hkrest⟩ := List.pairwise_cons.mp hkeys
    unfold bucketInsert
    split
    · rename_i hlt
      constructor
      · refine List.pairwise_cons.mpr ⟨?_, hkeys⟩
        intro q hq
        rcases List.mem_cons.mp hq with rfl | hq'
        · exact hlt
        · exact lt_trans hlt (hk1 q hq')
      · intro p hp
        rcases List.mem_cons.mp hp with rfl | hp'
        · exact ⟨by simp, by simp⟩
        · exact hbuckets p hp'
    · rename_i hlt
      split
      · rename_i heq
        constructor
        · exact List.pairwise_cons.mpr ⟨fun q hq => hk1 q hq, hkrest⟩
        · intro p hp
          rcases List.mem_cons.mp hp with rfl | hp'
          · obtain ⟨hsorted, hyear⟩ := hbuckets (y', b) (by simp)
            refine ⟨setInsert_sorted b a hsorted, ?_⟩
            intro x hx
            rcases setInsert_mem b a x hx with rfl | h2
            · exact heq
            · exact hyear x h2
          · exact hbuckets p (List.mem_cons_of_mem _ hp')
      · rename_i heq
        have hgt : y' < a.published.year := by omega
        have hrestinv : IndexInv rest :=
          ⟨hkrest, fun p hp => hbuckets p (List.mem_cons_of_mem _ hp)⟩
        constructor
        · refine List.pairwise_cons.mpr ⟨?_, (bucketInsert_inv rest a hrestinv).1⟩
          intro q hq
          rcases (bucketInsert_shape rest a.published.year a q hq).1 with h1 | ⟨p, hp, h1⟩
          · rw [h1]; exact hgt
          · rw [h1]; exact hk1 p hp
        · intro p hp
          rcases List.mem_cons.mp hp with rfl | hp'
          · exact hbuckets (y', b) (by simp)
          · exact (bucketInsert_inv rest a hrestinv).2 p hp'

theorem ingestAll_inv : ∀ (as : List Article) (s : Site),
    IndexInv s.index → IndexInv (ingestAll s as).index := by
  intro as
  induction as with
  | nil => intro s h; exact h
  | cons a rest ih =>
    intro s h
    exact ih (ingest s a) (bucketInsert_inv s.index a h)

theorem emptySite_inv : IndexInv emptySite.index := by
  constructor
  · simp [emptySite, Site.new]
  · intro p hp
    simp [emptySite, Site.new] at hp

/-- The concatenation of the year buckets in index order. -/
def flatIndex (idx : List (Int × List Article)) : List Article :=
  idx.foldr (fun p acc => p.2 ++ acc) []

theorem bucketArticles_eq_flat (s : Site) : s.bucketArticles = flatIndex s.index := rfl

theorem flat_sorted : ∀ (idx : List (Int × List Article)), IndexInv idx →
    (flatIndex idx).Pairwise fun u v => artCmp u v = .lt := by
  intro idx
  induction idx with
  | nil => intro _; simp [flatIndex]
  | cons p rest ih =>
    intro hinv
    obtain ⟨hkeys, hbuckets⟩ := hinv
    obtain ⟨hk1, hkrest⟩ := List.pairwise_cons.mp hkeys
    have hrest : IndexInv rest := ⟨hkrest, fun q hq => hbuckets q (List.mem_cons_of_mem _ hq)⟩
    show (p.2 ++ flatIndex rest).Pairwise fun u v => artCmp u v = .lt
    rw [List.pairwise_append]
    refine ⟨(hbuckets p (by simp)).1, ih hrest, ?_⟩
    intro x hx z hz
    obtain ⟨q, hq, hzq⟩ := mem_foldrAppend.mp hz
    apply artCmp_lt_of_year_lt
    rw [(hbuckets p (by simp)).2 x hx, (hbuckets q (List.mem_cons_of_mem _ hq)).2 z hzq]
    exact hk1 q hq

theorem revFlatAux : ∀ (l : List (Int × List Article)) (acc : List Article),
    l.reverse.foldr (fun yb acc => yb.2.reverse ++ acc) acc =
    (l.foldr (fun p acc => p.2 ++ acc) []).reverse ++ acc := by
  intro l
  induction l with
  | nil => intro acc; rfl
  | cons p rest ih =>
    intro acc
    simp only [List.reverse_cons, List.foldr_append, List.foldr_cons, List.foldr_nil]
    rw [ih (p.2.reverse ++ acc)]
    simp [List.reverse_append]

theorem mostRecent_eq (s : Site) (n : Nat) :
    mostRecent s n = ((flatIndex s.index).reverse).take n := by
  unfold mostRecent flatIndex
  rw [show (s.index.reverse.foldr (fun yb acc => yb.2.reverse ++ acc) []) =
      (s.index.foldr (fun p acc => p.2 ++ acc) []).reverse from by
    rw [revFlatAux s.index []]
    simp]

theorem sortedDesc_take (l : List Article)
    (hs : l.Pairwise fun u v => artCmp v u = .lt) (n : Nat) :
    ((l.take n).Pairwise fun u v => artCmp v u = .lt) ∧
    ∀ x ∈ l.take n, ∀ y ∈ l, y ∉ l.take n → artCmp y x = .lt := by
  have hsplit : l.take n ++ l.drop n = l := List.take_append_drop n l
  constructor
  · exact hs.sublist (List.take_sublist n l)
  · intro x hx y hy hyn
    have hy2 : y ∈ l.take n ∨ y ∈ l.drop n := by
      rw [← hsplit] at hy
      exact List.mem_append.mp hy
    rcases hy2 with h | h
    · exact absurd h hyn
    · have hp : (l.take n ++ l.drop n).Pairwise fun u v => artCmp v u = .lt := by
        rw [hsplit]; exact hs
      exact (List.pairwise_append.mp hp).2.2 x hx y h

def wA2a : Article :=
  { id := "old", published := ⟨2020, 0⟩, updated := some ⟨2022, 0⟩, title := "old",
    subids := [], content := wLeafH }

def wA2b : Article :=
  { id := "new", published := ⟨2021, 0⟩, updated := none, title := "new",
    subids := [], content := wLeafH }

/-- C2 counterexample: article `old` (published 2020, updated 2022) has a
strictly greater effective timestamp than article `new` (published 2021,
never updated), yet the feed selection with `n = 1` picks `new`: the
iteration orders by year bucket and `(published, id)` only, ignoring
`updated`, so the selection is not ordered by descending effective
timestamp. -/
theorem claim_C2_counterexample :
    mostRecent (ingestAll emptySite [wA2a, wA2b]) 1 = [wA2b] ∧
    tsLtb (effectiveTs wA2b) (effectiveTs wA2a) = true ∧
    wA2a ∈ (ingestAll emptySite [wA2a, wA2b]).bucketArticles ∧
    wA2a ≠ wA2b := by
  refine ⟨rfl, rfl, ?_, ?_⟩
  · rw [show (ingestAll emptySite [wA2a, wA2b]).bucketArticles = [wA2a, wA2b] from rfl]
    exact List.mem_cons_self _ _
  · intro h
    have : wA2a.id = wA2b.id := congrArg Article.id h
    simp [wA2a, wA2b] at this

/-- C2 amended: for a site built by ingestion, `mostRecent n` (what seeds
the feed, with `n = 10`) is the prefix of the stored articles sorted in
strictly descending `(published, id)` order — the reverse of the
year-bucket ordering: it is itself strictly descending in that order, all
its elements are stored, and every stored article left unselected compares
strictly below every selected one.  The `updated` field plays no role in
the selection. -/
theorem claim_C2_amended (as : List Article) (n : Nat) :
    ((mostRecent (ingestAll emptySite as) n).Pairwise fun u v => artCmp v u = .lt) ∧
    (∀ x ∈ mostRecent (ingestAll emptySite as) n,
      x ∈ (ingestAll emptySite as).bucketArticles) ∧
    (∀ x ∈ mostRecent (ingestAll emptySite as) n,
      ∀ y ∈ (ingestAll emptySite as).bucketArticles,
        y ∉ mostRecent (ingestAll emptySite as) n → artCmp y x = .lt) := by
  have hinv := ingestAll_inv as emptySite emptySite_inv
  have hflat := flat_sorted _ hinv
  have hrev : ((flatIndex (ingestAll emptySite as).index).reverse.Pairwise
      fun u v => artCmp v u = .lt) := by
    rw [List.pairwise_reverse]
    exact hflat
  obtain ⟨h1, h2⟩ := sortedDesc_take _ hrev n
  rw [mostRecent_eq, bucketArticles_eq_flat]
  refine ⟨h1, ?_, ?_⟩
  · intro x hx
    have := List.mem_of_mem_take hx
    rwa [List.mem_reverse] at this
  · intro x hx y hy hyn
    exact h2 x hx y (List.mem_reverse.mpr hy) hyn

def wA2c : Article :=
  { id := "mid", published := ⟨2020, 5⟩, updated := none, title := "mid",
    subids := [], content := wLeafH }

theorem claim_C2_amended_witness :
    ((mostRecent (ingestAll emptySite [wA2a, wA2b, wA2c]) 2).Pairwise
      fun u v => artCmp v u = .lt) ∧
    wA2b ∈ mostRecent (ingestAll emptySite [wA2a, wA2b, wA2c]) 2 ∧
    artCmp wA2a wA2b = .lt := by
  have h := claim_C2_amended [wA2a, wA2b, wA2c] 2
  refine ⟨h.1, ?_, ?_⟩
  · rw [show mostRecent (ingestAll emptySite [wA2a, wA2b, wA2c]) 2 = [wA2b, wA2c] from rfl]
    exact List.mem_cons_self _ _
  · exact h.2.2 wA2c
      (by rw [show mostRecent (ingestAll emptySite [wA2a, wA2b, wA2c]) 2 = [wA2b, wA2c] from rfl]
          exact List.mem_cons_of_mem _ (List.mem_cons_self _ _))
      wA2a
      (by rw [show (ingestAll emptySite [wA2a, wA2b, wA2c]).bucketArticles =
            [wA2a, wA2c, wA2b] from rfl]
          exact List.mem_cons_self _ _)
      (by intro hmem
          rw [show mostRecent (ingestAll emptySite [wA2a, wA2b, wA2c]) 2 = [wA2b, wA2c] from rfl]
            at hmem
          have : wA2a.id = wA2b.id ∨ wA2a.id = wA2c.id := by
            rcases List.mem_cons.mp hmem with h1 | h1
            · exact Or.inl (congrArg Article.id h1)
            · rcases List.mem_cons.mp h1 with h2 | h2
              · exact Or.inr (congrArg Article.id h2)
              · cases h2
          simp [wA2a, wA2b, wA2c] at this)
